import Mathlib

/-!
Verification development for the Glamira batch-processing repository.

The definitions below are a shallow embedding of the two core modules:

* ETL/export_to_gcs.py — checkpointed streaming export
  (export_to_gcs loop, encode_sort_value / decode_sort_value,
  _jsonify_scalar / normalize_df_for_parquet, _retry_predicate);
* ETL/normalize_parquet_run.py — schema-drift detection and rewrite pass
  (detect_drifty_columns, with_retries / is_retryable_error, the
  resume-by-existence rewrite loop of main).

External library behaviour that the code calls (pandas dtype inference,
str / isoformat / json.dumps renderings, the object-store client) is
modelled explicitly; each such definition documents what it abstracts.
-/

namespace GlamiraETL

/-! ### Sort values and checkpoint encoding (export_to_gcs.py lines 241-265)

A Python value that can appear as the sort-key (cursor) value.  Values the
code only ever renders through a library function carry that rendering as
data: an ObjectId is carried as its 24-hex str(oid) form, a datetime as its
astimezone(utc).isoformat() string, a non-NaN float as its repr (the float
passes through encode/decode unchanged, so an opaque carrier is faithful). -/
inductive SortVal where
  | vNone
  | vObjectId (hex : String)
  | vDatetime (isoUtc : String)
  | vInt (n : Int)
  | vFloat (srepr : String)
  | vBool (b : Bool)
  | vStr (s : String)
deriving DecidableEq

/-- JSON-representable payload value, as stored in the checkpoint dict. -/
inductive JVal where
  | jNull
  | jStr (s : String)
  | jInt (n : Int)
  | jFloat (srepr : String)
  | jBool (b : Bool)
deriving DecidableEq

/-- Tagged payload produced by encode_sort_value: a dict with keys
"type" and "value". -/
structure Payload where
  tag : String
  value : JVal
deriving DecidableEq

/-- Embedding of encode_sort_value (export_to_gcs.py lines 241-251).
The Python type(v).__name__ tags are "int", "float", "bool", "str". -/
def encode_sort_value : SortVal → Payload
  | .vNone => ⟨"none", .jNull⟩
  | .vObjectId h => ⟨"objectid", .jStr h⟩
  | .vDatetime iso => ⟨"datetime", .jStr iso⟩
  | .vInt n => ⟨"int", .jInt n⟩
  | .vFloat r => ⟨"float", .jFloat r⟩
  | .vBool b => ⟨"bool", .jBool b⟩
  | .vStr s => ⟨"str", .jStr s⟩

/-- The Python value a JSON payload value denotes when returned as-is. -/
def pyOfJVal : JVal → SortVal
  | .jNull => .vNone
  | .jStr s => .vStr s
  | .jInt n => .vInt n
  | .jFloat r => .vFloat r
  | .jBool b => .vBool b

/-- Embedding of decode_sort_value (export_to_gcs.py lines 254-265).
For tag "objectid" the code calls ObjectId(val), which raises unless val
is a valid hex string — modelled as none.  For tag "datetime" the code
deliberately returns the ISO string itself (its comment: keep as ISO
string unless you need datetime queries), so the result is a Python str,
not a datetime.  Every other tag returns the stored value unchanged. -/
def decode_sort_value (p : Payload) : Option SortVal :=
  if p.tag = "none" then some .vNone
  else if p.tag = "objectid" then
    match p.value with
    | .jStr s => some (.vObjectId s)
    | _ => none
  else if p.tag = "datetime" then some (pyOfJVal p.value)
  else some (pyOfJVal p.value)

/-! ### The export loop (export_to_gcs.py lines 299-406)

The loop is embedded as a fuel-indexed transition function over an
explicit state, producing a trace of the externally visible effects.
Documents are represented by their sort-key values (the spec requires the
sort field to be always present and totally ordered); the source
collection is the list of those keys in ascending sort order, so the
Mongo query find(sort gt v).sort(ascending).limit(B) is the filter-take
below. -/

/-- Configuration slice of the export loop: BATCH_SIZE and MAX_DOCS
(0 means unlimited, matching the Python truthiness test). -/
structure ExpCfg where
  batchSize : Nat
  maxDocs : Nat
deriving DecidableEq

/-- Checkpoint record (chunk_idx, exported_docs, last_sort_value);
the updated_utc wall-clock field is omitted. -/
structure Ckpt (α : Type) where
  chunkIdx : Nat
  exportedDocs : Nat
  lastSortValue : Option α
deriving DecidableEq

/-- Orchestrator state: the three checkpoint counters plus the set of
chunk indices whose part blob currently exists in the blob store. -/
structure ExpState (α : Type) where
  chunkIdx : Nat
  exportedDocs : Nat
  lastSortValue : Option α
  gcsChunks : List Nat
deriving DecidableEq

/-- Externally visible effects of the export loop. -/
inductive ExpEvent (α : Type) where
  | readBatch (b : List α)
  | writeLocal (idx : Nat)
  | upload (idx : Nat)
  | removeLocal (idx : Nat)
  | saveCkpt (c : Ckpt α)
  | writeManifest (chunks : Nat) (docs : Nat)
deriving DecidableEq

variable {α : Type}

/-- Embedding of the batch read (export_to_gcs.py lines 332-335): filter
sort-key strictly greater than the cursor (no filter when the cursor is
None), ascending order, limit BATCH_SIZE.  src is the collection in
ascending sort order. -/
def readBatch [LinearOrder α] (src : List α) (last : Option α) (b : Nat) : List α :=
  match last with
  | none => src.take b
  | some v => (src.filter (fun d => v < d)).take b

/-- Checkpoint advance of export_to_gcs.py lines 348-355 and 372-381:
index bumped by one, count grown by the batch length, cursor moved to
the last element of the batch just read (the batch is nonempty on every
path that builds this checkpoint, so getLast? is its last element). -/
def nextCkpt [LinearOrder α] (cfg : ExpCfg) (src : List α) (s : ExpState α) : Ckpt α :=
  ⟨s.chunkIdx + 1,
   s.exportedDocs + (readBatch src s.lastSortValue cfg.batchSize).length,
   (readBatch src s.lastSortValue cfg.batchSize).getLast?⟩

/-- State after one iteration: the advanced checkpoint counters together
with the given blob-store contents. -/
def advState [LinearOrder α] (cfg : ExpCfg) (src : List α) (s : ExpState α)
    (g : List Nat) : ExpState α :=
  ⟨s.chunkIdx + 1,
   s.exportedDocs + (readBatch src s.lastSortValue cfg.batchSize).length,
   (readBatch src s.lastSortValue cfg.batchSize).getLast?, g⟩

/-- Embedding of the while-loop of export_to_gcs (lines 327-406) plus the
terminal manifest write.  Fuel bounds the number of iterations; running
out of fuel models a crash (no manifest, trace simply stops).  Each
iteration mirrors the source: cap check, batch read, empty-check,
existence check on the target part blob, then either the skip-advance
path (lines 346-357) or write-upload-remove-save (lines 359-382). -/
def runLoop [LinearOrder α] (cfg : ExpCfg) (src : List α) :
    Nat → ExpState α → List (ExpEvent α) × ExpState α
  | 0, s => ([], s)
  | Nat.succ fuel, s =>
    if cfg.maxDocs ≠ 0 ∧ cfg.maxDocs ≤ s.exportedDocs then
      ([.writeManifest s.chunkIdx s.exportedDocs], s)
    else if readBatch src s.lastSortValue cfg.batchSize = [] then
      ([.readBatch (readBatch src s.lastSortValue cfg.batchSize),
        .writeManifest s.chunkIdx s.exportedDocs], s)
    else if s.chunkIdx + 1 ∈ s.gcsChunks then
      let r := runLoop cfg src fuel (advState cfg src s s.gcsChunks)
      (.readBatch (readBatch src s.lastSortValue cfg.batchSize) ::
        .saveCkpt (nextCkpt cfg src s) :: r.1, r.2)
    else
      let r := runLoop cfg src fuel (advState cfg src s ((s.chunkIdx + 1) :: s.gcsChunks))
      (.readBatch (readBatch src s.lastSortValue cfg.batchSize) ::
        .writeLocal (s.chunkIdx + 1) :: .upload (s.chunkIdx + 1) ::
        .removeLocal (s.chunkIdx + 1) :: .saveCkpt (nextCkpt cfg src s) :: r.1, r.2)

/-- Checkpoints saved along a trace, in order. -/
def ckptsOf : List (ExpEvent α) → List (Ckpt α) :=
  List.filterMap fun e =>
    match e with
    | .saveCkpt c => some c
    | _ => none

/-- Batches read along a trace, in order. -/
def batchesOf : List (ExpEvent α) → List (List α) :=
  List.filterMap fun e =>
    match e with
    | .readBatch b => some b
    | _ => none

/-- Ordering used for the cursor: None (no cursor yet) precedes every
value; values compare by the sort-key order. -/
def optLe [LinearOrder α] : Option α → Option α → Prop
  | none, _ => True
  | some _, none => False
  | some a, some b => a ≤ b

instance [LinearOrder α] : DecidableRel (optLe (α := α)) := by
  intro a b
  cases a <;> cases b <;> simp [optLe] <;> infer_instance

/-! ### Record normalization (export_to_gcs.py lines 143-195)

A Python value that can appear as a field of a Mongo document.  As with
SortVal, values the code only renders through library calls carry the
rendering as data: pBytes carries the utf-8 decoding when the bytes are
valid utf-8 together with the lowercase hex rendering, and pComposite
(dict / list / tuple / set and the generic fallback) carries its
json.dumps text.  pNaN is a float NaN (pd.isna holds); pNone is None. -/
inductive PyVal where
  | pNone
  | pNaN
  | pBool (b : Bool)
  | pInt (n : Int)
  | pFloat (srepr : String)
  | pStr (s : String)
  | pObjectId (hex : String)
  | pDatetime (isoUtc : String)
  | pBytes (utf8 : Option String) (hexLower : String)
  | pComposite (dumped : String)
deriving DecidableEq

/-- Embedding of _jsonify_scalar (export_to_gcs.py lines 143-176): None
and NaN map to None; ObjectId to str(x); datetime to the UTC ISO form;
bytes to the utf-8 decoding if valid else the hex form; composites to
json.dumps; str stays itself; int, float and bool are stringified, with
Python str rendering True / False for booleans. -/
def jsonify_scalar : PyVal → Option String
  | .pNone => none
  | .pNaN => none
  | .pObjectId h => some h
  | .pDatetime iso => some iso
  | .pBytes u hx => some (u.getD hx)
  | .pComposite d => some d
  | .pStr s => some s
  | .pInt n => some (toString n)
  | .pFloat r => some r
  | .pBool b => some (if b then "True" else "False")

/-- One Mongo document: an association list of field name to value
(Python dict; keys assumed unique, first binding wins). -/
abbrev MRow := List (String × PyVal)

/-- Column names of pd.DataFrame(rows): field names in order of first
appearance across the rows. -/
def colNames (rows : List MRow) : List String :=
  rows.foldl
    (fun acc r => r.foldl (fun acc2 kv => if kv.1 ∈ acc2 then acc2 else acc2 ++ [kv.1]) acc) []

/-- Cell of a row under column c; a missing field becomes NaN, as pandas
fills absent dict keys with NaN. -/
def cellOf (r : MRow) (c : String) : PyVal :=
  match r.find? (fun kv => kv.1 == c) with
  | some kv => kv.2
  | none => .pNaN

/-- The column of a DataFrame built from rows. -/
def columnOf (rows : List MRow) (c : String) : List PyVal := rows.map (cellOf · c)

/-- Pandas dtypes relevant to this code path. -/
inductive Dtype where
  | int64
  | float64
  | boolDt
  | datetime64
  | objectDt
deriving DecidableEq

def isIntCell : PyVal → Bool
  | .pInt _ => true
  | _ => false

def isBoolCell : PyVal → Bool
  | .pBool _ => true
  | _ => false

def isDatetimeCell : PyVal → Bool
  | .pDatetime _ => true
  | _ => false

/-- Numeric in the pandas promotion sense: int, float or NaN. -/
def isNumericCell : PyVal → Bool
  | .pInt _ => true
  | .pFloat _ => true
  | .pNaN => true
  | _ => false

def isNumericOrNone : PyVal → Bool
  | .pNone => true
  | v => isNumericCell v

def isDatetimeOrMissing : PyVal → Bool
  | .pDatetime _ => true
  | .pNaN => true
  | .pNone => true
  | _ => false

/-- Modelled pandas dtype inference for a column built from a list of
dicts: a nonempty all-int column is int64; ints / floats / NaN (with
None coerced to NaN) promote to float64; a nonempty all-bool column is
bool; datetimes with missing values promote to datetime64 (NaT); every
other mix — strings, ObjectIds, bytes, composites, bool-vs-int, and
all-None columns — is the object dtype. -/
def inferDtype (cells : List PyVal) : Dtype :=
  if cells ≠ [] ∧ cells.all isIntCell then .int64
  else if cells.all isNumericOrNone ∧ cells.any isNumericCell then .float64
  else if cells ≠ [] ∧ cells.all isBoolCell then .boolDt
  else if cells.all isDatetimeOrMissing ∧ cells.any isDatetimeCell then .datetime64
  else .objectDt

/-- The value stored back by df.map over an object column: None for
None-result, the string otherwise. -/
def stringifyCell (v : PyVal) : PyVal :=
  match jsonify_scalar v with
  | none => .pNone
  | some s => .pStr s

/-- Embedding of normalize_df_for_parquet (export_to_gcs.py lines
179-188): every column whose dtype is object is mapped through
_jsonify_scalar; all other columns are left untouched.  The result is
the table as a list of named columns. -/
def normalize_df_for_parquet (rows : List MRow) : List (String × List PyVal) :=
  (colNames rows).map fun c =>
    (c, if inferDtype (columnOf rows c) = .objectDt
        then (columnOf rows c).map stringifyCell
        else columnOf rows c)

def cellIsTextOrNull : PyVal → Bool
  | .pNone => true
  | .pStr _ => true
  | _ => false

/-- Modelled sufficient condition for df.to_parquet to succeed with no
type conflict: every object-dtype column holds only strings and nulls
(Arrow then writes a string column); columns of a native uniform dtype
always serialize. -/
def to_parquet_ok (tbl : List (String × List PyVal)) : Bool :=
  tbl.all fun col => decide (inferDtype col.2 ≠ .objectDt) || col.2.all cellIsTextOrNull

/-! ### Blob-store retry policies (export_to_gcs.py lines 204-224,
normalize_parquet_run.py lines 22-48) -/

/-- Exception classes of the object-store client that can reach the
retry predicate.  The first seven are the transient allow-list named in
_retry_predicate; the rest are representative non-transient errors. -/
inductive GapiError where
  | tooManyRequests
  | serviceUnavailable
  | internalServerError
  | badGateway
  | gatewayTimeout
  | deadlineExceeded
  | requestTimeout
  | forbidden
  | notFound
  | badRequest
  | conflict
deriving DecidableEq

/-- Embedding of _retry_predicate (export_to_gcs.py lines 204-216): an
isinstance check against the tuple of seven transient exception
classes. -/
def retry_predicate : GapiError → Bool
  | .tooManyRequests => true
  | .serviceUnavailable => true
  | .internalServerError => true
  | .badGateway => true
  | .gatewayTimeout => true
  | .deadlineExceeded => true
  | .requestTimeout => true
  | _ => false

/-- Configuration of the google-api-core Retry object built at
export_to_gcs.py lines 218-224: initial 1s, cap 60s, multiplier 2,
total wall-clock deadline in seconds (GCS_RETRY_DEADLINE, default
3600).  The backoff driver itself (randomized jitter, deadline measured
from the first attempt) lives in the library. -/
structure RetryPolicy where
  initial : Nat
  maximum : Nat
  multiplier : Nat
  deadlineSecs : Nat
deriving DecidableEq

def mkGcsRetry (deadlineSecs : Nat) : RetryPolicy :=
  ⟨1, 60, 2, deadlineSecs⟩

/-- Embedding of RETRYABLE_SUBSTRINGS (normalize_parquet_run.py lines
22-30). -/
def RETRYABLE_SUBSTRINGS : List String :=
  ["oauth2.googleapis.com", "NameResolutionError", "getaddrinfo failed",
   "TransportError", "ConnectionError", "Max retries exceeded", "Read timed out"]

/-- Substring containment over character lists: the pattern is a prefix
of some suffix of the haystack. -/
def charsContains (pat : List Char) : List Char → Bool
  | [] => pat.isEmpty
  | c :: t => pat.isPrefixOf (c :: t) || charsContains pat t

/-- Python "pat in hay" substring containment. -/
def strContains (hay pat : String) : Bool :=
  charsContains pat.data hay.data

/-- Embedding of is_retryable_error (normalize_parquet_run.py lines
33-35): substring match of str(e) against the fixed list. -/
def is_retryable_error (s : String) : Bool :=
  RETRYABLE_SUBSTRINGS.any (fun x => strContains s x)

/-- Backoff before retry a of with_retries, prior to jitter: min of
max_sleep 60 and base_sleep 2 times 2 to the (a - 1); the code then
multiplies by a random factor in the interval 0.7 to 1.3. -/
def sleep_base (a : Nat) : Nat :=
  min 60 (2 * 2 ^ (a - 1))

/-- Embedding of the attempt loop of with_retries
(normalize_parquet_run.py lines 38-48), with the outcome of each attempt
given as a function from the 1-based attempt index.  rem is structural
fuel equal to the remaining loop range, so it never reaches 0 before the
a-equals-attempts stop fires (the stop test is written as attempts ≤ a,
equivalent on the reachable indices 1..attempts).  Returns the final
outcome together with the index of the last attempt made. -/
def with_retries_aux {V : Type} (outcomes : Nat → Except String V) (attempts a : Nat) :
    Nat → Except String V × Nat
  | 0 => (outcomes a, a)
  | rem + 1 =>
    match outcomes a with
    | .ok v => (.ok v, a)
    | .error e =>
      if is_retryable_error e = false ∨ attempts ≤ a then (.error e, a)
      else with_retries_aux outcomes attempts (a + 1) rem

/-- with_retries with its default of 8 attempts made explicit. -/
def with_retries {V : Type} (outcomes : Nat → Except String V) (attempts : Nat) :
    Except String V × Nat :=
  with_retries_aux outcomes attempts 1 attempts

/-! ### Drift detection (normalize_parquet_run.py lines 57-80, 137-149) -/

/-- A parquet schema field, carrying arrow_type_key(field.type) — the
str() rendering of its arrow type — as its signature. -/
structure PField where
  name : String
  sig : String
deriving DecidableEq

abbrev PSchema := List PField

/-- Python set.add on the value list of the defaultdict (sets are kept
as duplicate-free lists in arrival order). -/
def add_sig (v : List String) (s : String) : List String :=
  if s ∈ v then v else v ++ [s]

/-- Update of the defaultdict(set) under one observed field. -/
def upsert (m : List (String × List String)) (n s : String) : List (String × List String) :=
  match m with
  | [] => [(n, [s])]
  | kv :: rest => if kv.1 = n then (kv.1, add_sig kv.2 s) :: rest else kv :: upsert rest n s

/-- Folding the observation loop of detect_drifty_columns over a flat
field list, from an arbitrary accumulated map. -/
def collect_from (excl : List String) (fields : List PField)
    (m : List (String × List String)) : List (String × List String) :=
  fields.foldl (fun m2 f => if f.name ∈ excl then m2 else upsert m2 f.name f.sig) m

/-- Embedding of detect_drifty_columns (normalize_parquet_run.py lines
73-80): iterate schemas then fields (flattening), skip excluded columns,
collect the set of distinct signatures per column, keep the columns
whose set has more than one member. -/
def detect_drifty_columns (schemas : List PSchema) (excl : List String) :
    List (String × List String) :=
  (collect_from excl schemas.flatten []).filter (fun kv => decide (1 < kv.2.length))

/-- Lookup of the signature list recorded for a column. -/
def sigs_for (m : List (String × List String)) (c : String) : List String :=
  match m with
  | [] => []
  | kv :: rest => if kv.1 = c then kv.2 else sigs_for rest c

def keysOf (m : List (String × List String)) : List String := m.map Prod.fst

/-- Specification-side description of the observations for a column:
the signatures of every field named c across the sampled schemas in
order, duplicates included.  Used only as the comparison target of the
drift-report characterization. -/
def specObservedSigs (schemas : List PSchema) (c : String) : List String :=
  (schemas.flatten.filter (fun f => f.name == c)).map PField.sig

/-- Embedding of list_parquet_paths (normalize_parquet_run.py lines
57-59): the glob result sorted lexicographically (Python sorted is a
stable comparison sort; insertion sort realizes the same function). -/
def list_parquet_paths (raw : List String) : List String :=
  List.insertionSort (· ≤ ·) raw

/-- Embedding of the sampling step of main (normalize_parquet_run.py
lines 137-139): sample_n is min of sample_size and the file count, and
the sample is the first sample_n files. -/
def sample_files (files : List String) (sampleSize : Nat) : List String :=
  files.take (min sampleSize files.length)

/-! ### Drift-normalization rewrite loop (normalize_parquet_run.py lines
185-215) -/

/-- Arguments of the rewrite pass that decide which files are touched:
bucket, source and destination run locations, and the resume flag. -/
structure RwCfg where
  bucket : String
  srcPref : String
  dstPref : String
  resume : Bool

/-- Externally visible per-file effects of the rewrite pass. -/
inductive RwEvent where
  | rRead (srcPath : String)
  | rWrite (dstPath : String)
  | rSkip (srcPath : String)
deriving DecidableEq

/-- Embedding of the destination-path computation (normalize_parquet_run.py
lines 191-193): drop the bucket plus slash, drop the source location,
re-root under the destination location. -/
def dst_path_of (cfg : RwCfg) (srcPath : String) : String :=
  cfg.bucket ++ "/" ++ cfg.dstPref ++ ((srcPath.drop (cfg.bucket.length + 1)).drop cfg.srcPref.length)

/-- Embedding of the phase-2 file loop (normalize_parquet_run.py lines
190-211): for each source file in order, skip when the resume flag is
set and the destination already exists; otherwise read the source,
transform, and write the destination (which then exists for the rest of
the pass).  The second component threads the set of existing
destination-side paths. -/
def rewriteLoop (cfg : RwCfg) : List String → List String → List RwEvent × List String
  | [], ex => ([], ex)
  | p :: rest, ex =>
    if cfg.resume ∧ dst_path_of cfg p ∈ ex then
      let r := rewriteLoop cfg rest ex
      (.rSkip p :: r.1, r.2)
    else
      let r := rewriteLoop cfg rest (dst_path_of cfg p :: ex)
      (.rRead p :: .rWrite (dst_path_of cfg p) :: r.1, r.2)

/-! ## Theorems

First, plumbing lemmas about the export loop. -/

theorem runLoop_zero [LinearOrder α] (cfg : ExpCfg) (src : List α) (s : ExpState α) :
    runLoop cfg src 0 s = ([], s) := rfl

theorem runLoop_cap [LinearOrder α] (cfg : ExpCfg) (src : List α) (fuel : Nat) (s : ExpState α)
    (h : cfg.maxDocs ≠ 0 ∧ cfg.maxDocs ≤ s.exportedDocs) :
    runLoop cfg src (fuel + 1) s = ([.writeManifest s.chunkIdx s.exportedDocs], s) := by
  simp only [runLoop, if_pos h]

theorem runLoop_empty [LinearOrder α] (cfg : ExpCfg) (src : List α) (fuel : Nat) (s : ExpState α)
    (hcap : ¬ (cfg.maxDocs ≠ 0 ∧ cfg.maxDocs ≤ s.exportedDocs))
    (hb : readBatch src s.lastSortValue cfg.batchSize = []) :
    runLoop cfg src (fuel + 1) s =
      ([.readBatch [], .writeManifest s.chunkIdx s.exportedDocs], s) := by
  simp only [runLoop, if_neg hcap, hb]
  rw [if_pos trivial]

theorem runLoop_skip [LinearOrder α] (cfg : ExpCfg) (src : List α) (fuel : Nat) (s : ExpState α)
    (hcap : ¬ (cfg.maxDocs ≠ 0 ∧ cfg.maxDocs ≤ s.exportedDocs))
    (hb : readBatch src s.lastSortValue cfg.batchSize ≠ [])
    (hex : s.chunkIdx + 1 ∈ s.gcsChunks) :
    runLoop cfg src (fuel + 1) s =
      (.readBatch (readBatch src s.lastSortValue cfg.batchSize) ::
        .saveCkpt (nextCkpt cfg src s) ::
        (runLoop cfg src fuel (advState cfg src s s.gcsChunks)).1,
       (runLoop cfg src fuel (advState cfg src s s.gcsChunks)).2) := by
  simp only [runLoop, if_neg hcap, if_neg hb, if_pos hex]

theorem runLoop_up [LinearOrder α] (cfg : ExpCfg) (src : List α) (fuel : Nat) (s : ExpState α)
    (hcap : ¬ (cfg.maxDocs ≠ 0 ∧ cfg.maxDocs ≤ s.exportedDocs))
    (hb : readBatch src s.lastSortValue cfg.batchSize ≠ [])
    (hex : s.chunkIdx + 1 ∉ s.gcsChunks) :
    runLoop cfg src (fuel + 1) s =
      (.readBatch (readBatch src s.lastSortValue cfg.batchSize) ::
        .writeLocal (s.chunkIdx + 1) :: .upload (s.chunkIdx + 1) ::
        .removeLocal (s.chunkIdx + 1) :: .saveCkpt (nextCkpt cfg src s) ::
        (runLoop cfg src fuel (advState cfg src s ((s.chunkIdx + 1) :: s.gcsChunks))).1,
       (runLoop cfg src fuel (advState cfg src s ((s.chunkIdx + 1) :: s.gcsChunks))).2) := by
  simp only [runLoop, if_neg hcap, if_neg hb, if_neg hex]

/-- Every local parquet write or blob upload emitted from a state has a
chunk index strictly above the state's checkpoint index. -/
theorem runLoop_event_idx_lb [LinearOrder α] (cfg : ExpCfg) (src : List α) :
    ∀ (fuel : Nat) (s : ExpState α) (i : Nat),
      (ExpEvent.writeLocal (α := α) i ∈ (runLoop cfg src fuel s).1 ∨
        ExpEvent.upload (α := α) i ∈ (runLoop cfg src fuel s).1) →
      s.chunkIdx < i := by
  intro fuel
  induction fuel with
  | zero =>
    intro s i h
    rw [runLoop_zero] at h
    simp at h
  | succ n ih =>
    intro s i h
    by_cases hcap : cfg.maxDocs ≠ 0 ∧ cfg.maxDocs ≤ s.exportedDocs
    · rw [runLoop_cap cfg src n s hcap] at h
      simp at h
    · by_cases hb : readBatch src s.lastSortValue cfg.batchSize = []
      · rw [runLoop_empty cfg src n s hcap hb] at h
        simp at h
      · by_cases hex : s.chunkIdx + 1 ∈ s.gcsChunks
        · rw [runLoop_skip cfg src n s hcap hb hex] at h
          simp only [List.mem_cons] at h
          have key : ExpEvent.writeLocal (α := α) i ∈
                (runLoop cfg src n (advState cfg src s s.gcsChunks)).1 ∨
              ExpEvent.upload (α := α) i ∈
                (runLoop cfg src n (advState cfg src s s.gcsChunks)).1 := by
            rcases h with h | h
            · rcases h with h | h | h
              · cases h
              · cases h
              · exact Or.inl h
            · rcases h with h | h | h
              · cases h
              · cases h
              · exact Or.inr h
          have := ih (advState cfg src s s.gcsChunks) i key
          simp only [advState] at this
          omega
        · rw [runLoop_up cfg src n s hcap hb hex] at h
          simp only [List.mem_cons] at h
          have key : i = s.chunkIdx + 1 ∨
              (ExpEvent.writeLocal (α := α) i ∈
                (runLoop cfg src n (advState cfg src s ((s.chunkIdx + 1) :: s.gcsChunks))).1 ∨
               ExpEvent.upload (α := α) i ∈
                (runLoop cfg src n (advState cfg src s ((s.chunkIdx + 1) :: s.gcsChunks))).1) := by
            rcases h with h | h
            · rcases h with h | h | h | h | h | h
              · cases h
              · injection h with h2
                exact Or.inl h2
              · cases h
              · cases h
              · cases h
              · exact Or.inr (Or.inl h)
            · rcases h with h | h | h | h | h | h
              · cases h
              · cases h
              · injection h with h2
                exact Or.inl h2
              · cases h
              · cases h
              · exact Or.inr (Or.inr h)
          rcases key with h | h
          · omega
          · have := ih (advState cfg src s ((s.chunkIdx + 1) :: s.gcsChunks)) i h
            simp only [advState] at this
            omega

/-- Splitting a cons against an append-with-a-marked-cell decomposition. -/
theorem cons_eq_append_split {β : Type} {e x : β} {t p q : List β}
    (h : e :: t = p ++ x :: q) :
    (p = [] ∧ e = x ∧ t = q) ∨ ∃ p2, p = e :: p2 ∧ t = p2 ++ x :: q := by
  cases p with
  | nil =>
    simp only [List.nil_append, List.cons.injEq] at h
    exact Or.inl ⟨rfl, h.1, h.2⟩
  | cons a p2 =>
    simp only [List.cons_append, List.cons.injEq] at h
    exact Or.inr ⟨p2, by rw [h.1], h.2⟩

/-- C1: in every export iteration whose target chunk blob already exists,
the loop performs no local parquet write and no upload for that index
anywhere in the remaining run, and the iteration's whole effect is the
batch read followed by saving the checkpoint advanced from the re-read
batch (index bumped, count grown by the re-read batch's length, cursor
set to its last sort-key value) — the save precedes whatever the next
iteration does. -/
theorem chunk_exists_skip_advances_checkpoint [LinearOrder α] (cfg : ExpCfg) (src : List α)
    (fuel : Nat) (s : ExpState α)
    (hcap : ¬ (cfg.maxDocs ≠ 0 ∧ cfg.maxDocs ≤ s.exportedDocs))
    (hb : readBatch src s.lastSortValue cfg.batchSize ≠ [])
    (hex : s.chunkIdx + 1 ∈ s.gcsChunks) :
    runLoop cfg src (fuel + 1) s =
      (ExpEvent.readBatch (readBatch src s.lastSortValue cfg.batchSize) ::
        ExpEvent.saveCkpt ⟨s.chunkIdx + 1,
          s.exportedDocs + (readBatch src s.lastSortValue cfg.batchSize).length,
          (readBatch src s.lastSortValue cfg.batchSize).getLast?⟩ ::
        (runLoop cfg src fuel (advState cfg src s s.gcsChunks)).1,
       (runLoop cfg src fuel (advState cfg src s s.gcsChunks)).2) ∧
    ExpEvent.writeLocal (α := α) (s.chunkIdx + 1) ∉ (runLoop cfg src (fuel + 1) s).1 ∧
    ExpEvent.upload (α := α) (s.chunkIdx + 1) ∉ (runLoop cfg src (fuel + 1) s).1 := by
  have heq := runLoop_skip cfg src fuel s hcap hb hex
  refine ⟨heq, ?_, ?_⟩
  · intro hmem
    rw [heq] at hmem
    rcases List.mem_cons.mp hmem with h | h
    · cases h
    · rcases List.mem_cons.mp h with h | h
      · cases h
      · have := runLoop_event_idx_lb cfg src fuel (advState cfg src s s.gcsChunks)
          (s.chunkIdx + 1) (Or.inl h)
        simp only [advState] at this
        omega
  · intro hmem
    rw [heq] at hmem
    rcases List.mem_cons.mp hmem with h | h
    · cases h
    · rcases List.mem_cons.mp h with h | h
      · cases h
      · have := runLoop_event_idx_lb cfg src fuel (advState cfg src s s.gcsChunks)
          (s.chunkIdx + 1) (Or.inr h)
        simp only [advState] at this
        omega

/-- Witness for C1 at a concrete input: blob for chunk 1 already exists,
the loop takes the skip path and never writes or uploads part 1. -/
theorem chunk_exists_skip_advances_checkpoint_witness :
    (¬ ((2:Nat) ≠ 2 ∧ (2:Nat) ≤ 0)) ∧
    readBatch [1, 2, 3, 4] (none : Option Nat) 2 ≠ [] ∧
    (0 + 1) ∈ [1] ∧
    ExpEvent.upload (α := Nat) (0 + 1) ∉
      (runLoop ⟨2, 0⟩ [1, 2, 3, 4] (3 + 1) ⟨0, 0, none, [1]⟩).1 :=
  ⟨by decide, by decide, by decide,
    (chunk_exists_skip_advances_checkpoint ⟨2, 0⟩ [1, 2, 3, 4] 3 ⟨0, 0, none, [1]⟩
      (by decide) (by decide) (by decide)).2.2⟩

/-- C2: every checkpoint save in an export trace is for a chunk index
whose blob was already in the blob store when the run started, or whose
local write, upload and local-cleanup attempt all occur strictly before
the save in the trace; the checkpoint never gets ahead of the durable
data. -/
theorem checkpoint_save_after_upload [LinearOrder α] (cfg : ExpCfg) (src : List α) :
    ∀ (fuel : Nat) (s : ExpState α) (p : List (ExpEvent α)) (c : Ckpt α) (q : List (ExpEvent α)),
      (runLoop cfg src fuel s).1 = p ++ ExpEvent.saveCkpt c :: q →
      c.chunkIdx ∈ s.gcsChunks ∨
        (ExpEvent.writeLocal (α := α) c.chunkIdx ∈ p ∧
         ExpEvent.upload (α := α) c.chunkIdx ∈ p ∧
         ExpEvent.removeLocal (α := α) c.chunkIdx ∈ p) := by
  intro fuel
  induction fuel with
  | zero =>
    intro s p c q h
    rw [runLoop_zero] at h
    exact absurd h (by simp)
  | succ n ih =>
    intro s p c q h
    by_cases hcap : cfg.maxDocs ≠ 0 ∧ cfg.maxDocs ≤ s.exportedDocs
    · rw [runLoop_cap cfg src n s hcap] at h
      rcases cons_eq_append_split h with ⟨_, he, _⟩ | ⟨p1, hp1, h1t⟩
      · cases he
      · exact absurd h1t (by simp)
    · by_cases hb : readBatch src s.lastSortValue cfg.batchSize = []
      · rw [runLoop_empty cfg src n s hcap hb] at h
        rcases cons_eq_append_split h with ⟨_, he, _⟩ | ⟨p1, hp1, h1t⟩
        · cases he
        · rcases cons_eq_append_split h1t with ⟨_, he2, _⟩ | ⟨p2, hp2, h2t⟩
          · cases he2
          · exact absurd h2t (by simp)
      · by_cases hex : s.chunkIdx + 1 ∈ s.gcsChunks
        · rw [runLoop_skip cfg src n s hcap hb hex] at h
          rcases cons_eq_append_split h with ⟨_, he, _⟩ | ⟨p1, hp1, h1t⟩
          · cases he
          · rcases cons_eq_append_split h1t with ⟨hp2, he2, h2t⟩ | ⟨p2, hp2, h2t⟩
            · injection he2 with hc
              refine Or.inl ?_
              rw [← hc]
              exact hex
            · have := ih (advState cfg src s s.gcsChunks) p2 c q h2t
              simp only [advState] at this
              rcases this with hl | ⟨m1, m2, m3⟩
              · exact Or.inl hl
              · subst hp2
                subst hp1
                exact Or.inr ⟨by simp [m1], by simp [m2], by simp [m3]⟩
        · rw [runLoop_up cfg src n s hcap hb hex] at h
          rcases cons_eq_append_split h with ⟨_, he, _⟩ | ⟨p1, hp1, h1t⟩
          · cases he
          · rcases cons_eq_append_split h1t with ⟨_, he2, _⟩ | ⟨p2, hp2, h2t⟩
            · cases he2
            · rcases cons_eq_append_split h2t with ⟨_, he3, _⟩ | ⟨p3, hp3, h3t⟩
              · cases he3
              · rcases cons_eq_append_split h3t with ⟨_, he4, _⟩ | ⟨p4, hp4, h4t⟩
                · cases he4
                · rcases cons_eq_append_split h4t with ⟨hp5, he5, h5t⟩ | ⟨p5, hp5, h5t⟩
                  · injection he5 with hc
                    subst hp5
                    subst hp4
                    subst hp3
                    subst hp2
                    subst hp1
                    refine Or.inr ⟨?_, ?_, ?_⟩ <;>
                      · rw [← hc]
                        simp [nextCkpt]
                  · have := ih (advState cfg src s ((s.chunkIdx + 1) :: s.gcsChunks)) p5 c q h5t
                    simp only [advState] at this
                    subst hp5
                    subst hp4
                    subst hp3
                    subst hp2
                    subst hp1
                    rcases this with hl | ⟨m1, m2, m3⟩
                    · rcases List.mem_cons.mp hl with hidx | hmem
                      · exact Or.inr ⟨by simp [hidx], by simp [hidx], by simp [hidx]⟩
                      · exact Or.inl hmem
                    · exact Or.inr ⟨by simp [m1], by simp [m2], by simp [m3]⟩

/-- Witness for C2 at a concrete input: the first checkpoint save of a
fresh two-chunk run sits after the write, upload and cleanup of part 1. -/
theorem checkpoint_save_after_upload_witness :
    (runLoop ⟨2, 0⟩ [1, 2, 3, 4] 3 (⟨0, 0, none, []⟩ : ExpState Nat)).1 =
      [ExpEvent.readBatch [1, 2], ExpEvent.writeLocal 1, ExpEvent.upload 1,
       ExpEvent.removeLocal 1] ++
        ExpEvent.saveCkpt ⟨1, 2, some 2⟩ ::
          [ExpEvent.readBatch [3, 4], ExpEvent.writeLocal 2, ExpEvent.upload 2,
           ExpEvent.removeLocal 2, ExpEvent.saveCkpt ⟨2, 4, some 4⟩,
           ExpEvent.readBatch [], ExpEvent.writeManifest 2 4] ∧
    ((⟨1, 2, some 2⟩ : Ckpt Nat).chunkIdx ∈ ([] : List Nat) ∨
      (ExpEvent.writeLocal (α := Nat) 1 ∈
         [ExpEvent.readBatch [1, 2], ExpEvent.writeLocal 1, ExpEvent.upload 1,
          ExpEvent.removeLocal 1] ∧
       ExpEvent.upload (α := Nat) 1 ∈
         [ExpEvent.readBatch [1, 2], ExpEvent.writeLocal 1, ExpEvent.upload 1,
          ExpEvent.removeLocal 1] ∧
       ExpEvent.removeLocal (α := Nat) 1 ∈
         [ExpEvent.readBatch [1, 2], ExpEvent.writeLocal 1, ExpEvent.upload 1,
          ExpEvent.removeLocal 1])) :=
  ⟨by decide,
    checkpoint_save_after_upload ⟨2, 0⟩ [1, 2, 3, 4] 3 ⟨0, 0, none, []⟩
      [ExpEvent.readBatch [1, 2], ExpEvent.writeLocal 1, ExpEvent.upload 1,
       ExpEvent.removeLocal 1]
      ⟨1, 2, some 2⟩
      [ExpEvent.readBatch [3, 4], ExpEvent.writeLocal 2, ExpEvent.upload 2,
       ExpEvent.removeLocal 2, ExpEvent.saveCkpt ⟨2, 4, some 4⟩,
       ExpEvent.readBatch [], ExpEvent.writeManifest 2 4]
      (by decide)⟩

/-- C4 counterexample: encoding then decoding a datetime sort value does
not reconstruct the datetime — the decoder returns the ISO-8601 string
as a plain str value. -/
theorem decode_encode_datetime_counterexample :
    decode_sort_value (encode_sort_value (SortVal.vDatetime "2024-01-01T00:00:00+00:00")) ≠
      some (SortVal.vDatetime "2024-01-01T00:00:00+00:00") := by
  decide

/-- C4 amended: decode is a left inverse of encode for every supported
sort-value kind except datetime (none, ObjectId, int, float, bool, str);
a datetime value decodes to its ISO-8601 UTC rendering as a str, not to
a datetime. -/
theorem decode_encode_roundtrip :
    (∀ v : SortVal, (∀ iso : String, v ≠ SortVal.vDatetime iso) →
      decode_sort_value (encode_sort_value v) = some v) ∧
    (∀ iso : String,
      decode_sort_value (encode_sort_value (SortVal.vDatetime iso)) =
        some (SortVal.vStr iso)) := by
  constructor
  · intro v hv
    cases v with
    | vNone => rfl
    | vObjectId h => rfl
    | vDatetime iso => exact absurd rfl (hv iso)
    | vInt n => rfl
    | vFloat r => rfl
    | vBool b => rfl
    | vStr s => rfl
  · intro iso
    rfl

/-- Witness for C4 at a concrete input: an int survives the round trip. -/
theorem decode_encode_roundtrip_witness :
    (∀ iso : String, SortVal.vInt 7 ≠ SortVal.vDatetime iso) ∧
    decode_sort_value (encode_sort_value (SortVal.vInt 7)) = some (SortVal.vInt 7) :=
  ⟨fun _ h => (nomatch h), decode_encode_roundtrip.1 (SortVal.vInt 7) (fun _ h => (nomatch h))⟩

/-- Batches are bounded by the configured batch size. -/
theorem readBatch_length_le [LinearOrder α] (src : List α) (last : Option α) (b : Nat) :
    (readBatch src last b).length ≤ b := by
  cases last <;> simp [readBatch, List.length_take]

/-- Every document returned by a cursor-filtered read lies strictly
beyond the cursor. -/
theorem readBatch_mem_gt [LinearOrder α] {src : List α} {v : α} {b : Nat} {x : α}
    (hx : x ∈ readBatch src (some v) b) : v < x := by
  simp only [readBatch] at hx
  have hx2 := List.mem_of_mem_take hx
  have := (List.mem_filter.mp hx2).2
  exact of_decide_eq_true this

/-- The cursor never moves backwards in one advance: the last element of
the batch read after cursor position last is at least last. -/
theorem optLe_last_readBatch [LinearOrder α] (src : List α) (last : Option α) (b : Nat)
    (hb : readBatch src last b ≠ []) :
    optLe last (readBatch src last b).getLast? := by
  cases last with
  | none => exact trivial
  | some v =>
    rw [List.getLast?_eq_getLast_of_ne_nil hb]
    have hmem := List.getLast_mem hb
    exact le_of_lt (readBatch_mem_gt hmem)

/-- C9: for every export run, the saved chunk indices are exactly the
consecutive integers starting at the loaded checkpoint's chunk_idx plus
one (strictly increasing, none skipped, none reused); the exported-docs
counter is non-decreasing across checkpoint saves and the cursor value
never rolls back; and the final exported count is the initial count plus
the total length of all batches read, so each iteration advances by
exactly its batch's length. -/
theorem chunk_indices_consecutive_and_monotone [LinearOrder α] (cfg : ExpCfg) (src : List α) :
    ∀ (fuel : Nat) (s : ExpState α),
      ((ckptsOf (runLoop cfg src fuel s).1).map Ckpt.chunkIdx =
        List.range' (s.chunkIdx + 1) (ckptsOf (runLoop cfg src fuel s).1).length) ∧
      List.Chain' (· ≤ ·)
        (s.exportedDocs :: (ckptsOf (runLoop cfg src fuel s).1).map Ckpt.exportedDocs) ∧
      List.Chain' optLe
        (s.lastSortValue :: (ckptsOf (runLoop cfg src fuel s).1).map Ckpt.lastSortValue) ∧
      (runLoop cfg src fuel s).2.exportedDocs =
        s.exportedDocs + ((batchesOf (runLoop cfg src fuel s).1).map List.length).sum := by
  intro fuel
  induction fuel with
  | zero =>
    intro s
    rw [runLoop_zero]
    simp [ckptsOf, batchesOf]
  | succ n ih =>
    intro s
    by_cases hcap : cfg.maxDocs ≠ 0 ∧ cfg.maxDocs ≤ s.exportedDocs
    · rw [runLoop_cap cfg src n s hcap]
      simp [ckptsOf, batchesOf]
    · by_cases hb : readBatch src s.lastSortValue cfg.batchSize = []
      · rw [runLoop_empty cfg src n s hcap hb]
        simp [ckptsOf, batchesOf]
      · have hlast := optLe_last_readBatch src s.lastSortValue cfg.batchSize hb
        by_cases hex : s.chunkIdx + 1 ∈ s.gcsChunks
        · rw [runLoop_skip cfg src n s hcap hb hex]
          have ihs := ih (advState cfg src s s.gcsChunks)
          simp only [ckptsOf, batchesOf, List.filterMap_cons] at ihs ⊢
          simp only [advState, nextCkpt] at ihs ⊢
          refine ⟨?_, ?_, ?_, ?_⟩
          · simp only [List.map_cons, List.length_cons, List.range'_succ]
            rw [ihs.1]
          · simp only [List.map_cons]
            rw [List.chain'_cons]
            exact ⟨Nat.le_add_right _ _, ihs.2.1⟩
          · simp only [List.map_cons]
            rw [List.chain'_cons]
            exact ⟨hlast, ihs.2.2.1⟩
          · simp only [List.map_cons, List.sum_cons]
            rw [ihs.2.2.2]
            omega
        · rw [runLoop_up cfg src n s hcap hb hex]
          have ihs := ih (advState cfg src s ((s.chunkIdx + 1) :: s.gcsChunks))
          simp only [ckptsOf, batchesOf, List.filterMap_cons] at ihs ⊢
          simp only [advState, nextCkpt] at ihs ⊢
          refine ⟨?_, ?_, ?_, ?_⟩
          · simp only [List.map_cons, List.length_cons, List.range'_succ]
            rw [ihs.1]
          · simp only [List.map_cons]
            rw [List.chain'_cons]
            exact ⟨Nat.le_add_right _ _, ihs.2.1⟩
          · simp only [List.map_cons]
            rw [List.chain'_cons]
            exact ⟨hlast, ihs.2.2.1⟩
          · simp only [List.map_cons, List.sum_cons]
            rw [ihs.2.2.2]
            omega

/-- Witness for C9 at a concrete input: a fresh three-chunk run saves
checkpoints with indices 1, 2, 3. -/
theorem chunk_indices_consecutive_and_monotone_witness :
    (ckptsOf (runLoop ⟨2, 0⟩ [1, 2, 3, 4, 5] 4 (⟨0, 0, none, []⟩ : ExpState Nat)).1).map
        Ckpt.chunkIdx =
      List.range' (0 + 1)
        (ckptsOf (runLoop ⟨2, 0⟩ [1, 2, 3, 4, 5] 4 (⟨0, 0, none, []⟩ : ExpState Nat)).1).length :=
  (chunk_indices_consecutive_and_monotone ⟨2, 0⟩ [1, 2, 3, 4, 5] 4 ⟨0, 0, none, []⟩).1

/-- C7 counterexample: resuming a completed run (cursor at the largest
sort key 1 of the unchanged source, both chunk blobs present, checkpoint
totals 1 chunk / 2 docs) reads one empty batch and stops — but it still
writes the manifest blob again, so the rerun is not write-free against
durable storage. -/
theorem rerun_writes_manifest_counterexample :
    (runLoop ⟨5, 0⟩ [0, 1] 5 (⟨1, 2, some 1, [1]⟩ : ExpState Nat)).1 =
      [ExpEvent.readBatch [], ExpEvent.writeManifest 1 2] ∧
    ExpEvent.writeManifest (α := Nat) 1 2 ∈
      (runLoop ⟨5, 0⟩ [0, 1] 5 (⟨1, 2, some 1, [1]⟩ : ExpState Nat)).1 := by
  decide

/-- C7 amended: rerunning a completed export (same run id, unchanged
source, no cap) issues exactly one resume query that returns an empty
batch, performs no chunk upload, no local write and no checkpoint save,
leaves the checkpoint state unchanged — but rewrites the manifest blob
once with the checkpoint's totals. -/
theorem rerun_after_completion [LinearOrder α] (cfg : ExpCfg) (src : List α) (fuel : Nat)
    (s : ExpState α) (m : α)
    (hmax : cfg.maxDocs = 0)
    (hlast : s.lastSortValue = some m)
    (hdone : ∀ d ∈ src, d ≤ m) :
    runLoop cfg src (fuel + 1) s =
      ([ExpEvent.readBatch [], ExpEvent.writeManifest s.chunkIdx s.exportedDocs], s) ∧
    (∀ i : Nat, ExpEvent.upload (α := α) i ∉ (runLoop cfg src (fuel + 1) s).1) ∧
    (∀ i : Nat, ExpEvent.writeLocal (α := α) i ∉ (runLoop cfg src (fuel + 1) s).1) ∧
    (∀ c : Ckpt α, ExpEvent.saveCkpt c ∉ (runLoop cfg src (fuel + 1) s).1) ∧
    ExpEvent.writeManifest (α := α) s.chunkIdx s.exportedDocs ∈
      (runLoop cfg src (fuel + 1) s).1 := by
  have hb : readBatch src s.lastSortValue cfg.batchSize = [] := by
    rw [hlast]
    simp only [readBatch]
    have hf : src.filter (fun d => decide (m < d)) = [] :=
      List.filter_eq_nil_iff.mpr (fun a ha => by simpa using not_lt.mpr (hdone a ha))
    rw [hf]
    simp
  have hcap : ¬ (cfg.maxDocs ≠ 0 ∧ cfg.maxDocs ≤ s.exportedDocs) := by
    simp [hmax]
  have heq := runLoop_empty cfg src fuel s hcap hb
  refine ⟨heq, ?_, ?_, ?_, ?_⟩
  · intro i
    rw [heq]
    simp
  · intro i
    rw [heq]
    simp
  · intro c
    rw [heq]
    simp
  · rw [heq]
    simp

/-- Witness for C7 at a concrete input. -/
theorem rerun_after_completion_witness :
    (∀ d ∈ [0, 1], d ≤ (1 : Nat)) ∧
    runLoop ⟨5, 0⟩ [0, 1] (4 + 1) (⟨1, 2, some 1, [1]⟩ : ExpState Nat) =
      ([ExpEvent.readBatch [], ExpEvent.writeManifest 1 2], ⟨1, 2, some 1, [1]⟩) :=
  ⟨by decide,
    (rerun_after_completion ⟨5, 0⟩ [0, 1] 4 ⟨1, 2, some 1, [1]⟩ 1 rfl rfl (by decide)).1⟩

/-- The exported-docs counter stays below cap plus batch size whenever a
positive cap is configured and it starts below that bound. -/
theorem runLoop_exported_lt [LinearOrder α] (cfg : ExpCfg) (src : List α)
    (hM : cfg.maxDocs ≠ 0) :
    ∀ (fuel : Nat) (s : ExpState α),
      s.exportedDocs < cfg.maxDocs + cfg.batchSize →
      (runLoop cfg src fuel s).2.exportedDocs < cfg.maxDocs + cfg.batchSize := by
  intro fuel
  induction fuel with
  | zero =>
    intro s h0
    rw [runLoop_zero]
    exact h0
  | succ n ih =>
    intro s h0
    by_cases hcap : cfg.maxDocs ≠ 0 ∧ cfg.maxDocs ≤ s.exportedDocs
    · rw [runLoop_cap cfg src n s hcap]
      exact h0
    · by_cases hb : readBatch src s.lastSortValue cfg.batchSize = []
      · rw [runLoop_empty cfg src n s hcap hb]
        exact h0
      · have hlt : s.exportedDocs < cfg.maxDocs := by
          rcases not_and_or.mp hcap with h | h
          · exact absurd hM h
          · omega
        have hlen := readBatch_length_le src s.lastSortValue cfg.batchSize
        by_cases hex : s.chunkIdx + 1 ∈ s.gcsChunks
        · rw [runLoop_skip cfg src n s hcap hb hex]
          exact ih (advState cfg src s s.gcsChunks) (by simp only [advState]; omega)
        · rw [runLoop_up cfg src n s hcap hb hex]
          exact ih (advState cfg src s ((s.chunkIdx + 1) :: s.gcsChunks))
            (by simp only [advState]; omega)

/-- The manifest, when written, records exactly the final chunk count
and the final exported total of the run. -/
theorem runLoop_manifest_totals [LinearOrder α] (cfg : ExpCfg) (src : List α) :
    ∀ (fuel : Nat) (s : ExpState α) (ch d : Nat),
      ExpEvent.writeManifest (α := α) ch d ∈ (runLoop cfg src fuel s).1 →
      ch = (runLoop cfg src fuel s).2.chunkIdx ∧
        d = (runLoop cfg src fuel s).2.exportedDocs := by
  intro fuel
  induction fuel with
  | zero =>
    intro s ch d h
    rw [runLoop_zero] at h ⊢
    simp at h
  | succ n ih =>
    intro s ch d h
    by_cases hcap : cfg.maxDocs ≠ 0 ∧ cfg.maxDocs ≤ s.exportedDocs
    · rw [runLoop_cap cfg src n s hcap] at h ⊢
      simp at h
      exact ⟨h.1, h.2⟩
    · by_cases hb : readBatch src s.lastSortValue cfg.batchSize = []
      · rw [runLoop_empty cfg src n s hcap hb] at h ⊢
        simp at h
        exact ⟨h.1, h.2⟩
      · by_cases hex : s.chunkIdx + 1 ∈ s.gcsChunks
        · rw [runLoop_skip cfg src n s hcap hb hex] at h ⊢
          rcases List.mem_cons.mp h with he | h2
          · cases he
          · rcases List.mem_cons.mp h2 with he | h3
            · cases he
            · exact ih (advState cfg src s s.gcsChunks) ch d h3
        · rw [runLoop_up cfg src n s hcap hb hex] at h ⊢
          rcases List.mem_cons.mp h with he | h2
          · cases he
          · rcases List.mem_cons.mp h2 with he | h3
            · cases he
            · rcases List.mem_cons.mp h3 with he | h4
              · cases he
              · rcases List.mem_cons.mp h4 with he | h5
                · cases he
                · rcases List.mem_cons.mp h5 with he | h6
                  · cases he
                  · exact ih (advState cfg src s ((s.chunkIdx + 1) :: s.gcsChunks)) ch d h6

/-- C10: with a positive cap, the cap is enforced only at batch
boundaries: once the exported count reaches the cap the next iteration
stops before issuing any read and writes the manifest; the final
exported total can exceed the cap but always stays strictly below cap
plus batch size (when it starts below that bound, in particular from a
fresh run); and the manifest records the actual final totals. -/
theorem doc_cap_batch_boundary [LinearOrder α] (cfg : ExpCfg) (src : List α) (fuel : Nat)
    (s : ExpState α) (hM : cfg.maxDocs ≠ 0)
    (h0 : s.exportedDocs < cfg.maxDocs + cfg.batchSize) :
    (runLoop cfg src fuel s).2.exportedDocs < cfg.maxDocs + cfg.batchSize ∧
    (∀ k : Nat, cfg.maxDocs ≤ s.exportedDocs →
      runLoop cfg src (k + 1) s = ([ExpEvent.writeManifest s.chunkIdx s.exportedDocs], s)) ∧
    (∀ ch d : Nat, ExpEvent.writeManifest (α := α) ch d ∈ (runLoop cfg src fuel s).1 →
      ch = (runLoop cfg src fuel s).2.chunkIdx ∧
        d = (runLoop cfg src fuel s).2.exportedDocs) :=
  ⟨runLoop_exported_lt cfg src hM fuel s h0,
   fun k hge => runLoop_cap cfg src k s ⟨hM, hge⟩,
   fun ch d h => runLoop_manifest_totals cfg src fuel s ch d h⟩

/-- Witness for C10 at a concrete input: cap 3, batch size 2, fresh run
over six documents — the run overshoots to 4 exported docs, strictly
below 3 + 2. -/
theorem doc_cap_batch_boundary_witness :
    ((3 : Nat) ≠ 0) ∧ ((0 : Nat) < 3 + 2) ∧
    (runLoop ⟨2, 3⟩ [0, 1, 2, 3, 4, 5] 9 (⟨0, 0, none, []⟩ : ExpState Nat)).2.exportedDocs <
      3 + 2 :=
  ⟨by decide, by decide,
    (doc_cap_batch_boundary ⟨2, 3⟩ [0, 1, 2, 3, 4, 5] 9 ⟨0, 0, none, []⟩
      (by decide) (by decide)).1⟩

/-- Stringified cells are always text or null. -/
theorem stringifyCell_textOrNull (v : PyVal) : cellIsTextOrNull (stringifyCell v) = true := by
  cases v <;> rfl

/-- A fully stringified column passes the text-or-null check. -/
theorem all_textOrNull_of_map_stringify (cells : List PyVal) :
    ((cells.map stringifyCell).all cellIsTextOrNull) = true := by
  rw [List.all_map]
  refine List.all_eq_true.mpr ?_
  intro v _
  simpa using stringifyCell_textOrNull v

/-- C3 counterexample: a batch whose column a holds only ints keeps the
int64 dtype, so the normalizer leaves its values as ints — they are not
rendered as text, contradicting the every-value-stringified reading. -/
theorem normalize_int_column_counterexample :
    normalize_df_for_parquet [[("a", PyVal.pInt 1)], [("a", PyVal.pInt 2)]] =
      [("a", [PyVal.pInt 1, PyVal.pInt 2])] ∧
    inferDtype (columnOf [[("a", PyVal.pInt 1)], [("a", PyVal.pInt 2)]] "a") = Dtype.int64 ∧
    cellIsTextOrNull (PyVal.pInt 1) = false := by
  decide

/-- C3 amended: the normalizer stringifies exactly the object-dtype
columns — those whose values mix types or are non-primitive (strings,
identifiers, timestamps in mixed columns, binary, composites) — turning
every cell into text or null; columns uniformly inferred to a native
int / float / bool / datetime dtype are left unchanged with their native
values; and the resulting table always serializes to the columnar format
with no type conflict within the batch. -/
theorem normalize_object_dtype_only (rows : List MRow) :
    to_parquet_ok (normalize_df_for_parquet rows) = true ∧
    (∀ cv ∈ normalize_df_for_parquet rows,
      (inferDtype (columnOf rows cv.1) = Dtype.objectDt →
        cv.2 = (columnOf rows cv.1).map stringifyCell ∧
        cv.2.all cellIsTextOrNull = true) ∧
      (inferDtype (columnOf rows cv.1) ≠ Dtype.objectDt →
        cv.2 = columnOf rows cv.1)) := by
  constructor
  · simp only [to_parquet_ok]
    refine List.all_eq_true.mpr ?_
    intro col hcol
    simp only [normalize_df_for_parquet, List.mem_map] at hcol
    obtain ⟨c, _, rfl⟩ := hcol
    by_cases hdt : inferDtype (columnOf rows c) = Dtype.objectDt
    · rw [if_pos hdt]
      have hall := all_textOrNull_of_map_stringify (columnOf rows c)
      simp [hall]
    · rw [if_neg hdt]
      simp [hdt]
  · intro cv hcv
    simp only [normalize_df_for_parquet, List.mem_map] at hcv
    obtain ⟨c, _, rfl⟩ := hcv
    constructor
    · intro hdt
      constructor
      · simp [hdt]
      · simp only [if_pos hdt]
        exact all_textOrNull_of_map_stringify _
    · intro hdt
      simp [hdt]

/-- Witness for C3 at a concrete input: a column mixing an int and a str
is object dtype and comes out fully stringified; the table serializes. -/
theorem normalize_object_dtype_only_witness :
    to_parquet_ok
      (normalize_df_for_parquet [[("a", PyVal.pInt 1)], [("a", PyVal.pStr "x")]]) = true ∧
    ("a", [PyVal.pStr "1", PyVal.pStr "x"]) ∈
      normalize_df_for_parquet [[("a", PyVal.pInt 1)], [("a", PyVal.pStr "x")]] ∧
    inferDtype (columnOf [[("a", PyVal.pInt 1)], [("a", PyVal.pStr "x")]] "a") =
      Dtype.objectDt ∧
    ([PyVal.pStr "1", PyVal.pStr "x"] : List PyVal).all cellIsTextOrNull = true :=
  ⟨(normalize_object_dtype_only [[("a", PyVal.pInt 1)], [("a", PyVal.pStr "x")]]).1,
   by decide, by decide,
   (((normalize_object_dtype_only [[("a", PyVal.pInt 1)], [("a", PyVal.pStr "x")]]).2
      ("a", [PyVal.pStr "1", PyVal.pStr "x"]) (by decide)).1 (by decide)).2⟩

/-- With the resume flag set, files whose destination already exists are
never read and their destinations never rewritten. -/
theorem rewriteLoop_no_touch_existing (cfg : RwCfg) (hres : cfg.resume = true) :
    ∀ (files ex : List String) (p : String),
      dst_path_of cfg p ∈ ex →
      RwEvent.rRead p ∉ (rewriteLoop cfg files ex).1 ∧
      RwEvent.rWrite (dst_path_of cfg p) ∉ (rewriteLoop cfg files ex).1 := by
  intro files
  induction files with
  | nil =>
    intro ex p hp
    simp [rewriteLoop]
  | cons q rest ih =>
    intro ex p hp
    by_cases hskip : cfg.resume ∧ dst_path_of cfg q ∈ ex
    · simp only [rewriteLoop, if_pos hskip]
      have hrec := ih ex p hp
      constructor
      · intro h
        rcases List.mem_cons.mp h with he | hm
        · cases he
        · exact hrec.1 hm
      · intro h
        rcases List.mem_cons.mp h with he | hm
        · cases he
        · exact hrec.2 hm
    · simp only [rewriteLoop, if_neg hskip]
      have hq : dst_path_of cfg q ∉ ex := fun hmem => hskip ⟨hres, hmem⟩
      have hne : p ≠ q := fun heq => hq (heq ▸ hp)
      have hdne : dst_path_of cfg p ≠ dst_path_of cfg q := fun heq => hq (heq ▸ hp)
      have hrec := ih (dst_path_of cfg q :: ex) p (List.mem_cons_of_mem _ hp)
      constructor
      · intro h
        rcases List.mem_cons.mp h with he | h2
        · injection he with h3
          exact hne h3
        · rcases List.mem_cons.mp h2 with he2 | hm
          · cases he2
          · exact hrec.1 hm
      · intro h
        rcases List.mem_cons.mp h with he | h2
        · cases he
        · rcases List.mem_cons.mp h2 with he2 | hm
          · injection he2 with h3
            exact hdne h3
          · exact hrec.2 hm

/-- A file whose destination is missing (and whose destination no other
file shares) is read and written by the pass. -/
theorem rewriteLoop_processes_missing (cfg : RwCfg) :
    ∀ (files ex : List String) (q : String),
      q ∈ files →
      dst_path_of cfg q ∉ ex →
      (∀ b ∈ files, dst_path_of cfg b = dst_path_of cfg q → b = q) →
      RwEvent.rRead q ∈ (rewriteLoop cfg files ex).1 ∧
      RwEvent.rWrite (dst_path_of cfg q) ∈ (rewriteLoop cfg files ex).1 := by
  intro files
  induction files with
  | nil =>
    intro ex q hq
    simp at hq
  | cons a rest ih =>
    intro ex q hq hnex hinj
    by_cases haq : a = q
    · subst haq
      have hskip : ¬ (cfg.resume ∧ dst_path_of cfg a ∈ ex) := fun h => hnex h.2
      simp only [rewriteLoop, if_neg hskip]
      exact ⟨List.mem_cons_self _ _, List.mem_cons_of_mem _ (List.mem_cons_self _ _)⟩
    · have hq2 : q ∈ rest := by
        rcases List.mem_cons.mp hq with h | h
        · exact absurd h.symm haq
        · exact h
      have hdne : dst_path_of cfg a ≠ dst_path_of cfg q := by
        intro he
        exact haq (hinj a (List.mem_cons_self _ _) he)
      have hinj2 : ∀ b ∈ rest, dst_path_of cfg b = dst_path_of cfg q → b = q :=
        fun b hb => hinj b (List.mem_cons_of_mem _ hb)
      by_cases hskip : cfg.resume ∧ dst_path_of cfg a ∈ ex
      · simp only [rewriteLoop, if_pos hskip]
        have hrec := ih ex q hq2 hnex hinj2
        exact ⟨List.mem_cons_of_mem _ hrec.1, List.mem_cons_of_mem _ hrec.2⟩
      · simp only [rewriteLoop, if_neg hskip]
        have hnex2 : dst_path_of cfg q ∉ dst_path_of cfg a :: ex := by
          intro hmem
          rcases List.mem_cons.mp hmem with he | hmem2
          · exact hdne he.symm
          · exact hnex hmem2
        have hrec := ih (dst_path_of cfg a :: ex) q hq2 hnex2 hinj2
        exact ⟨List.mem_cons_of_mem _ (List.mem_cons_of_mem _ hrec.1),
               List.mem_cons_of_mem _ (List.mem_cons_of_mem _ hrec.2)⟩

/-- C5 counterexample: without the resume flag (the default), the pass
re-reads a source file and re-writes its destination even though the
destination file already exists. -/
theorem rewrite_without_resume_counterexample :
    dst_path_of ⟨"b", "s/", "d/", false⟩ "b/s/f.parquet" = "b/d/f.parquet" ∧
    RwEvent.rRead "b/s/f.parquet" ∈
      (rewriteLoop ⟨"b", "s/", "d/", false⟩ ["b/s/f.parquet"] ["b/d/f.parquet"]).1 ∧
    RwEvent.rWrite "b/d/f.parquet" ∈
      (rewriteLoop ⟨"b", "s/", "d/", false⟩ ["b/s/f.parquet"] ["b/d/f.parquet"]).1 := by
  decide

/-- C5 amended: when (and only when) the resume flag is set, the rewrite
pass never reads a source file whose mirrored destination path already
exists and never rewrites such a destination; source files whose
destination is missing (and not shared with another source file) are
read and written. -/
theorem resume_rewrite_touches_only_missing (cfg : RwCfg) (files ex : List String)
    (hres : cfg.resume = true) :
    (∀ p : String, dst_path_of cfg p ∈ ex →
      RwEvent.rRead p ∉ (rewriteLoop cfg files ex).1 ∧
      RwEvent.rWrite (dst_path_of cfg p) ∉ (rewriteLoop cfg files ex).1) ∧
    (∀ q ∈ files, dst_path_of cfg q ∉ ex →
      (∀ b ∈ files, dst_path_of cfg b = dst_path_of cfg q → b = q) →
      RwEvent.rRead q ∈ (rewriteLoop cfg files ex).1 ∧
      RwEvent.rWrite (dst_path_of cfg q) ∈ (rewriteLoop cfg files ex).1) :=
  ⟨fun p hp => rewriteLoop_no_touch_existing cfg hres files ex p hp,
   fun q hq hnex hinj => rewriteLoop_processes_missing cfg files ex q hq hnex hinj⟩

/-- Witness for C5 at a concrete input: with resume set, the one file
whose destination exists is skipped (not read), and a second file whose
destination is missing is written. -/
theorem resume_rewrite_touches_only_missing_witness :
    dst_path_of ⟨"b", "s/", "d/", true⟩ "b/s/f.parquet" ∈ ["b/d/f.parquet"] ∧
    RwEvent.rRead "b/s/f.parquet" ∉
      (rewriteLoop ⟨"b", "s/", "d/", true⟩ ["b/s/f.parquet", "b/s/g.parquet"]
        ["b/d/f.parquet"]).1 ∧
    RwEvent.rWrite (dst_path_of ⟨"b", "s/", "d/", true⟩ "b/s/g.parquet") ∈
      (rewriteLoop ⟨"b", "s/", "d/", true⟩ ["b/s/f.parquet", "b/s/g.parquet"]
        ["b/d/f.parquet"]).1 :=
  ⟨by decide,
   ((resume_rewrite_touches_only_missing ⟨"b", "s/", "d/", true⟩
      ["b/s/f.parquet", "b/s/g.parquet"] ["b/d/f.parquet"] rfl).1
      "b/s/f.parquet" (by decide)).1,
   ((resume_rewrite_touches_only_missing ⟨"b", "s/", "d/", true⟩
      ["b/s/f.parquet", "b/s/g.parquet"] ["b/d/f.parquet"] rfl).2
      "b/s/g.parquet" (by decide) (by decide) (by decide)).2⟩

/-- The drift-stage retry helper never makes an attempt numbered beyond
max of the starting index and the attempt budget. -/
theorem with_retries_aux_le {V : Type} (outcomes : Nat → Except String V) (attempts : Nat) :
    ∀ (rem a : Nat), (with_retries_aux outcomes attempts a rem).2 ≤ max a attempts := by
  intro rem
  induction rem with
  | zero =>
    intro a
    exact Nat.le_max_left a attempts
  | succ k ih =>
    intro a
    simp only [with_retries_aux]
    cases houtcome : outcomes a with
    | ok v => exact Nat.le_max_left a attempts
    | error e =>
      dsimp only
      by_cases hstop : is_retryable_error e = false ∨ attempts ≤ a
      · rw [if_pos hstop]
        exact Nat.le_max_left a attempts
      · rw [if_neg hstop]
        have hlt : a < attempts := by
          rcases not_or.mp hstop with ⟨_, h2⟩
          omega
        have := ih (a + 1)
        have hmax : max (a + 1) attempts = attempts := Nat.max_eq_right hlt
        rw [hmax] at this
        exact le_trans this (Nat.le_max_right a attempts)

/-- C6 counterexample: the drift-normalization stage's retry loop stops
after its fixed attempt budget of 8 even though the error stays
retryable under its own predicate — it is bounded by attempt count, not
by a wall-clock deadline — and its substring predicate does not cover a
service-unavailable condition that the export stage's allow-list
retries. -/
theorem retry_fixed_attempts_counterexample :
    (with_retries (fun _ => (Except.error "ConnectionError: reset" : Except String Unit)) 8).2
        = 8 ∧
    (with_retries (fun _ => (Except.error "ConnectionError: reset" : Except String Unit)) 8).1
        = Except.error "ConnectionError: reset" ∧
    is_retryable_error "ConnectionError: reset" = true ∧
    is_retryable_error "503 Service Unavailable" = false ∧
    retry_predicate GapiError.serviceUnavailable = true :=
  ⟨rfl, rfl, rfl, rfl, rfl⟩

/-- C6 amended: the export stage retries exactly the seven-condition
allow-list with exponential backoff and jitter under a total-deadline
policy; the drift-normalization stage's with_retries instead retries on
message-substring matches, with capped exponential backoff (and jitter),
stops after a fixed attempt budget (default 8) rather than a deadline,
and propagates a non-matching error immediately on the first attempt. -/
theorem retry_policies (deadline : Nat) :
    (∀ e : GapiError, retry_predicate e = true ↔
      (e = GapiError.tooManyRequests ∨ e = GapiError.serviceUnavailable ∨
       e = GapiError.internalServerError ∨ e = GapiError.badGateway ∨
       e = GapiError.gatewayTimeout ∨ e = GapiError.deadlineExceeded ∨
       e = GapiError.requestTimeout)) ∧
    (mkGcsRetry deadline).deadlineSecs = deadline ∧
    (mkGcsRetry deadline).initial = 1 ∧
    (mkGcsRetry deadline).maximum = 60 ∧
    (mkGcsRetry deadline).multiplier = 2 ∧
    (∀ s : String, is_retryable_error s = true ↔
      ∃ x ∈ RETRYABLE_SUBSTRINGS, strContains s x = true) ∧
    (∀ (V : Type) (outcomes : Nat → Except String V) (attempts : Nat),
      (with_retries outcomes attempts).2 ≤ max 1 attempts) ∧
    (∀ (V : Type) (outcomes : Nat → Except String V) (attempts : Nat) (e : String),
      outcomes 1 = Except.error e → is_retryable_error e = false →
      with_retries outcomes attempts = (Except.error e, 1)) ∧
    (∀ a : Nat, sleep_base (a + 1) = min 60 (2 ^ (a + 1))) := by
  refine ⟨?_, rfl, rfl, rfl, rfl, ?_, ?_, ?_, ?_⟩
  · intro e
    cases e <;> decide
  · intro s
    simp [is_retryable_error, List.any_eq_true]
  · intro V outcomes attempts
    exact with_retries_aux_le outcomes attempts attempts 1
  · intro V outcomes attempts e houtcome hretry
    cases attempts with
    | zero =>
      simp [with_retries, with_retries_aux, houtcome]
    | succ k =>
      simp [with_retries, with_retries_aux, houtcome, hretry]
  · intro a
    simp [sleep_base, pow_succ, Nat.mul_comm]

/-- Witness for C6 at a concrete input: a permission error matches no
retryable substring, so the drift-stage loop propagates it after one
attempt. -/
theorem retry_policies_witness :
    ((fun _ => (Except.error "PermissionDenied" : Except String Unit)) 1 =
      Except.error "PermissionDenied") ∧
    is_retryable_error "PermissionDenied" = false ∧
    with_retries (fun _ => (Except.error "PermissionDenied" : Except String Unit)) 8 =
      (Except.error "PermissionDenied", 1) :=
  ⟨rfl, rfl,
    (retry_policies 3600).2.2.2.2.2.2.2.1 Unit
      (fun _ => (Except.error "PermissionDenied" : Except String Unit)) 8 "PermissionDenied"
      rfl rfl⟩

/-! Plumbing lemmas for the drift-report characterization. -/

theorem add_sig_ne_nil (v : List String) (s : String) : add_sig v s ≠ [] := by
  by_cases h : s ∈ v
  · simp only [add_sig, if_pos h]
    intro hv
    rw [hv] at h
    simp at h
  · simp [add_sig, if_neg h]

theorem mem_add_sig {v : List String} {s x : String} :
    x ∈ add_sig v s ↔ x ∈ v ∨ x = s := by
  by_cases h : s ∈ v
  · simp only [add_sig, if_pos h]
    constructor
    · exact fun hx => Or.inl hx
    · rintro (hx | rfl)
      · exact hx
      · exact h
  · simp [add_sig, if_neg h]

theorem nodup_add_sig {v : List String} (s : String) (hv : v.Nodup) :
    (add_sig v s).Nodup := by
  by_cases h : s ∈ v
  · simpa [add_sig, if_pos h] using hv
  · simp only [add_sig, if_neg h]
    refine List.nodup_append.mpr ⟨hv, List.nodup_singleton s, ?_⟩
    intro a ha hb
    rw [List.mem_singleton] at hb
    subst hb
    exact h ha

theorem mem_foldl_add_sig :
    ∀ (l v : List String) (x : String),
      x ∈ List.foldl add_sig v l ↔ x ∈ v ∨ x ∈ l := by
  intro l
  induction l with
  | nil => simp
  | cons a t ih =>
    intro v x
    rw [List.foldl_cons, ih, mem_add_sig, List.mem_cons]
    tauto

theorem nodup_foldl_add_sig :
    ∀ (l v : List String), v.Nodup → (List.foldl add_sig v l).Nodup := by
  intro l
  induction l with
  | nil => exact fun v hv => hv
  | cons a t ih =>
    intro v hv
    rw [List.foldl_cons]
    exact ih _ (nodup_add_sig a hv)

theorem sigs_for_upsert :
    ∀ (m : List (String × List String)) (n s c : String),
      sigs_for (upsert m n s) c =
        if c = n then add_sig (sigs_for m n) s else sigs_for m c := by
  intro m
  induction m with
  | nil =>
    intro n s c
    by_cases h : c = n
    · subst h
      simp [upsert, sigs_for, add_sig]
    · have h2 : ¬ (n = c) := fun hh => h hh.symm
      simp [upsert, sigs_for, h, h2]
  | cons kv rest ih =>
    intro n s c
    by_cases h1 : kv.1 = n
    · by_cases h2 : c = n
      · simp [upsert, sigs_for, h1, h2, h1.trans h2.symm]
      · have h3 : ¬ kv.1 = c := fun hh => h2 ((hh.symm.trans h1))
        have h4 : ¬ n = c := fun hh => h2 hh.symm
        simp [upsert, sigs_for, h1, h2, h3, h4]
    · by_cases h2 : kv.1 = c
      · have h3 : ¬ c = n := fun hh => h1 (h2.trans hh)
        simp [upsert, sigs_for, h1, h2, h3]
      · simp [upsert, sigs_for, h1, h2, ih]

theorem sigs_for_collect_excl (excl : List String) :
    ∀ (fields : List PField) (m : List (String × List String)) (c : String),
      c ∈ excl →
      sigs_for (collect_from excl fields m) c = sigs_for m c := by
  intro fields
  induction fields with
  | nil => intro m c _; rfl
  | cons f rest ih =>
    intro m c hc
    by_cases hf : f.name ∈ excl
    · have hstep : collect_from excl (f :: rest) m = collect_from excl rest m := by
        simp [collect_from, hf]
      rw [hstep]
      exact ih m c hc
    · have hstep : collect_from excl (f :: rest) m =
          collect_from excl rest (upsert m f.name f.sig) := by
        simp [collect_from, hf]
      rw [hstep, ih _ c hc, sigs_for_upsert]
      have hne : ¬ c = f.name := fun hh => hf (hh ▸ hc)
      rw [if_neg hne]

theorem sigs_for_collect (excl : List String) :
    ∀ (fields : List PField) (m : List (String × List String)) (c : String),
      c ∉ excl →
      sigs_for (collect_from excl fields m) c =
        List.foldl add_sig (sigs_for m c)
          ((fields.filter (fun f => f.name == c)).map PField.sig) := by
  intro fields
  induction fields with
  | nil => intro m c _; rfl
  | cons f rest ih =>
    intro m c hc
    by_cases hf : f.name ∈ excl
    · have hstep : collect_from excl (f :: rest) m = collect_from excl rest m := by
        simp [collect_from, hf]
      have hnc : ¬ (f.name = c) := fun hh => hc (hh ▸ hf)
      rw [hstep, List.filter_cons_of_neg (by simpa using hnc)]
      exact ih m c hc
    · have hstep : collect_from excl (f :: rest) m =
          collect_from excl rest (upsert m f.name f.sig) := by
        simp [collect_from, hf]
      rw [hstep]
      by_cases hfc : f.name = c
      · rw [List.filter_cons_of_pos (by simpa using hfc), List.map_cons, List.foldl_cons,
          ih _ c hc, sigs_for_upsert]
        rw [if_pos hfc.symm, hfc]
      · rw [List.filter_cons_of_neg (by simpa using hfc), ih _ c hc, sigs_for_upsert,
          if_neg (fun hh => hfc hh.symm)]

theorem mem_keys_upsert :
    ∀ (m : List (String × List String)) (n s c : String),
      c ∈ keysOf (upsert m n s) ↔ c ∈ keysOf m ∨ c = n := by
  intro m
  induction m with
  | nil =>
    intro n s c
    simp [upsert, keysOf]
  | cons kv rest ih =>
    intro n s c
    by_cases h1 : kv.1 = n
    · simp only [upsert, if_pos h1, keysOf, List.map_cons, List.mem_cons]
      constructor
      · rintro (h | h)
        · exact Or.inl (Or.inl h)
        · exact Or.inl (Or.inr h)
      · rintro ((h | h) | h)
        · exact Or.inl h
        · exact Or.inr h
        · exact Or.inl (h.trans h1.symm)
    · simp only [upsert, if_neg h1, keysOf, List.map_cons, List.mem_cons]
      have hrec := ih n s c
      simp only [keysOf] at hrec
      rw [hrec]
      tauto

theorem keysND_upsert :
    ∀ (m : List (String × List String)) (n s : String),
      (keysOf m).Nodup → (keysOf (upsert m n s)).Nodup := by
  intro m
  induction m with
  | nil =>
    intro n s _
    simp [upsert, keysOf]
  | cons kv rest ih =>
    intro n s hnd
    simp only [keysOf, List.map_cons, List.nodup_cons] at hnd
    by_cases h1 : kv.1 = n
    · simp only [upsert, if_pos h1, keysOf, List.map_cons, List.nodup_cons]
      exact hnd
    · simp only [upsert, if_neg h1, keysOf, List.map_cons, List.nodup_cons]
      constructor
      · intro hmem
        rw [show (List.map Prod.fst (upsert rest n s)) = keysOf (upsert rest n s) from rfl,
          mem_keys_upsert] at hmem
        rcases hmem with h | h
        · exact hnd.1 h
        · exact h1 h
      · exact ih n s hnd.2

theorem valsNE_upsert :
    ∀ (m : List (String × List String)) (n s : String),
      (∀ kv ∈ m, kv.2 ≠ []) → ∀ kv ∈ upsert m n s, kv.2 ≠ [] := by
  intro m
  induction m with
  | nil =>
    intro n s _ kv hkv
    simp only [upsert, List.mem_singleton] at hkv
    subst hkv
    simp
  | cons hd rest ih =>
    intro n s hne kv hkv
    by_cases h1 : hd.1 = n
    · simp only [upsert, if_pos h1, List.mem_cons] at hkv
      rcases hkv with h | h
      · subst h
        exact add_sig_ne_nil _ _
      · exact hne kv (List.mem_cons_of_mem _ h)
    · simp only [upsert, if_neg h1, List.mem_cons] at hkv
      rcases hkv with h | h
      · subst h
        exact hne kv (List.mem_cons_self _ _)
      · exact ih n s (fun a ha => hne a (List.mem_cons_of_mem _ ha)) kv h

theorem valsND_upsert :
    ∀ (m : List (String × List String)) (n s : String),
      (∀ kv ∈ m, kv.2.Nodup) → ∀ kv ∈ upsert m n s, kv.2.Nodup := by
  intro m
  induction m with
  | nil =>
    intro n s _ kv hkv
    simp only [upsert, List.mem_singleton] at hkv
    subst hkv
    simp
  | cons hd rest ih =>
    intro n s hnd kv hkv
    by_cases h1 : hd.1 = n
    · simp only [upsert, if_pos h1, List.mem_cons] at hkv
      rcases hkv with h | h
      · subst h
        exact nodup_add_sig _ (hnd hd (List.mem_cons_self _ _))
      · exact hnd kv (List.mem_cons_of_mem _ h)
    · simp only [upsert, if_neg h1, List.mem_cons] at hkv
      rcases hkv with h | h
      · subst h
        exact hnd kv (List.mem_cons_self _ _)
      · exact ih n s (fun a ha => hnd a (List.mem_cons_of_mem _ ha)) kv h

theorem collect_keysND (excl : List String) :
    ∀ (fields : List PField) (m : List (String × List String)),
      (keysOf m).Nodup → (keysOf (collect_from excl fields m)).Nodup := by
  intro fields
  induction fields with
  | nil => exact fun m hm => hm
  | cons f rest ih =>
    intro m hm
    by_cases hf : f.name ∈ excl
    · have hstep : collect_from excl (f :: rest) m = collect_from excl rest m := by
        simp [collect_from, hf]
      rw [hstep]
      exact ih m hm
    · have hstep : collect_from excl (f :: rest) m =
          collect_from excl rest (upsert m f.name f.sig) := by
        simp [collect_from, hf]
      rw [hstep]
      exact ih _ (keysND_upsert m f.name f.sig hm)

theorem collect_valsNE (excl : List String) :
    ∀ (fields : List PField) (m : List (String × List String)),
      (∀ kv ∈ m, kv.2 ≠ []) → ∀ kv ∈ collect_from excl fields m, kv.2 ≠ [] := by
  intro fields
  induction fields with
  | nil => exact fun m hm => hm
  | cons f rest ih =>
    intro m hm
    by_cases hf : f.name ∈ excl
    · have hstep : collect_from excl (f :: rest) m = collect_from excl rest m := by
        simp [collect_from, hf]
      rw [hstep]
      exact ih m hm
    · have hstep : collect_from excl (f :: rest) m =
          collect_from excl rest (upsert m f.name f.sig) := by
        simp [collect_from, hf]
      rw [hstep]
      exact ih _ (valsNE_upsert m f.name f.sig hm)

theorem collect_valsND (excl : List String) :
    ∀ (fields : List PField) (m : List (String × List String)),
      (∀ kv ∈ m, kv.2.Nodup) → ∀ kv ∈ collect_from excl fields m, kv.2.Nodup := by
  intro fields
  induction fields with
  | nil => exact fun m hm => hm
  | cons f rest ih =>
    intro m hm
    by_cases hf : f.name ∈ excl
    · have hstep : collect_from excl (f :: rest) m = collect_from excl rest m := by
        simp [collect_from, hf]
      rw [hstep]
      exact ih m hm
    · have hstep : collect_from excl (f :: rest) m =
          collect_from excl rest (upsert m f.name f.sig) := by
        simp [collect_from, hf]
      rw [hstep]
      exact ih _ (valsND_upsert m f.name f.sig hm)

theorem pair_mem_iff :
    ∀ (m : List (String × List String)), (keysOf m).Nodup →
      ∀ (c : String) (v : List String),
        ((c, v) ∈ m ↔ c ∈ keysOf m ∧ sigs_for m c = v) := by
  intro m
  induction m with
  | nil =>
    intro _ c v
    simp [keysOf, sigs_for]
  | cons kv rest ih =>
    intro hnd c v
    simp only [keysOf, List.map_cons, List.nodup_cons] at hnd
    by_cases hc : kv.1 = c
    · constructor
      · intro hmem
        rcases List.mem_cons.mp hmem with h | h
        · refine ⟨by simp [keysOf, hc], ?_⟩
          simp only [sigs_for, if_pos hc]
          rw [← h]
        · exfalso
          apply hnd.1
          rw [hc]
          exact List.mem_map_of_mem Prod.fst h
      · rintro ⟨_, hsig⟩
        simp only [sigs_for, if_pos hc] at hsig
        refine List.mem_cons.mpr (Or.inl ?_)
        rw [← hsig, ← hc]
    · constructor
      · intro hmem
        rcases List.mem_cons.mp hmem with h | h
        · exfalso
          apply hc
          rw [show kv = (c, v) from h.symm]
        · have hrec := (ih hnd.2 c v).mp h
          refine ⟨?_, ?_⟩
          · simp only [keysOf, List.map_cons, List.mem_cons]
            right
            simpa only [keysOf] using hrec.1
          · simp only [sigs_for, if_neg hc]
            exact hrec.2
      · rintro ⟨hkey, hsig⟩
        simp only [keysOf, List.map_cons, List.mem_cons] at hkey
        rcases hkey with h | h
        · exact absurd h.symm hc
        · simp only [sigs_for, if_neg hc] at hsig
          exact List.mem_cons_of_mem _ ((ih hnd.2 c v).mpr ⟨h, hsig⟩)

theorem keys_iff_ne :
    ∀ (m : List (String × List String)), (∀ kv ∈ m, kv.2 ≠ []) →
      ∀ c : String, (c ∈ keysOf m ↔ sigs_for m c ≠ []) := by
  intro m
  induction m with
  | nil =>
    intro _ c
    simp [keysOf, sigs_for]
  | cons kv rest ih =>
    intro hne c
    by_cases hc : kv.1 = c
    · simp only [keysOf, List.map_cons, List.mem_cons, sigs_for, if_pos hc]
      constructor
      · intro _
        exact hne kv (List.mem_cons_self _ _)
      · intro _
        exact Or.inl hc.symm
    · simp only [keysOf, List.map_cons, List.mem_cons, sigs_for, if_neg hc]
      rw [show (List.map Prod.fst rest) = keysOf rest from rfl]
      constructor
      · rintro (h | h)
        · exact absurd h.symm hc
        · exact (ih (fun a ha => hne a (List.mem_cons_of_mem _ ha)) c).mp h
      · intro h
        exact Or.inr ((ih (fun a ha => hne a (List.mem_cons_of_mem _ ha)) c).mpr h)

theorem one_lt_length_iff_exists_ne {l : List String} (h : l.Nodup) :
    1 < l.length ↔ ∃ s ∈ l, ∃ t ∈ l, s ≠ t := by
  constructor
  · intro hl
    cases l with
    | nil => simp at hl
    | cons a t =>
      cases t with
      | nil => simp at hl
      | cons b rest =>
        refine ⟨a, by simp, b, by simp, ?_⟩
        intro he
        exact (List.nodup_cons.mp h).1 (he ▸ List.mem_cons_self b rest)
  · rintro ⟨s, hs, t, ht, hne⟩
    cases l with
    | nil => simp at hs
    | cons a t2 =>
      cases t2 with
      | nil =>
        simp only [List.mem_singleton] at hs ht
        exact absurd (hs.trans ht.symm) hne
      | cons b rest => simp [List.length_cons]

/-- C8: the drift report is fully characterized by the sorted file list,
the sample size and the exclusion set.  The sorted list is a permutation
of the glob result in ascending order; the sample is exactly the first
min(sample_size, N) sorted files; and a column appears in the report iff
it is outside the exclusion set and at least two distinct type
signatures are observed for it across the sampled schemas.  The report
is a pure function of these inputs, so two invocations on the same
inputs coincide definitionally. -/
theorem drift_report_characterization (raw : List String) (k : Nat)
    (schemas : List PSchema) (excl : List String) :
    List.Sorted (· ≤ ·) (list_parquet_paths raw) ∧
    (list_parquet_paths raw).Perm raw ∧
    sample_files (list_parquet_paths raw) k =
      (list_parquet_paths raw).take (min k (list_parquet_paths raw).length) ∧
    ∀ c : String,
      (∃ v, (c, v) ∈ detect_drifty_columns schemas excl) ↔
        (c ∉ excl ∧ ∃ s ∈ specObservedSigs schemas c,
          ∃ t ∈ specObservedSigs schemas c, s ≠ t) := by
  refine ⟨List.sorted_insertionSort _ raw, List.perm_insertionSort _ raw, rfl, ?_⟩
  intro c
  have hknd : (keysOf (collect_from excl schemas.flatten [])).Nodup :=
    collect_keysND excl schemas.flatten [] (by simp [keysOf])
  have hvne : ∀ kv ∈ collect_from excl schemas.flatten [], kv.2 ≠ [] :=
    collect_valsNE excl schemas.flatten [] (by intro kv hkv; simp at hkv)
  have hvnd : ∀ kv ∈ collect_from excl schemas.flatten [], kv.2.Nodup :=
    collect_valsND excl schemas.flatten [] (by intro kv hkv; simp at hkv)
  constructor
  · rintro ⟨v, hv⟩
    simp only [detect_drifty_columns] at hv
    have hmem := (List.mem_filter.mp hv).1
    have hlen : 1 < v.length := of_decide_eq_true (List.mem_filter.mp hv).2
    have hp := (pair_mem_iff _ hknd c v).mp hmem
    have hcex : c ∉ excl := by
      intro hc
      have h0 := sigs_for_collect_excl excl schemas.flatten [] c hc
      rw [hp.2] at h0
      simp only [sigs_for] at h0
      rw [h0] at hlen
      simp at hlen
    refine ⟨hcex, ?_⟩
    have hs := sigs_for_collect excl schemas.flatten [] c hcex
    have hvn : v.Nodup := hvnd _ hmem
    have hmem_iff : ∀ x, x ∈ v ↔ x ∈ specObservedSigs schemas c := by
      intro x
      rw [← hp.2, hs, mem_foldl_add_sig]
      simp [sigs_for, specObservedSigs]
    obtain ⟨s, hsv, t, htv, hst⟩ := (one_lt_length_iff_exists_ne hvn).mp hlen
    exact ⟨s, (hmem_iff s).mp hsv, t, (hmem_iff t).mp htv, hst⟩
  · rintro ⟨hcex, s, hs, t, ht, hst⟩
    have hrep := sigs_for_collect excl schemas.flatten [] c hcex
    have hmem_iff : ∀ x, x ∈ sigs_for (collect_from excl schemas.flatten []) c ↔
        x ∈ specObservedSigs schemas c := by
      intro x
      rw [hrep, mem_foldl_add_sig]
      simp [sigs_for, specObservedSigs]
    have hvn : (sigs_for (collect_from excl schemas.flatten []) c).Nodup := by
      rw [hrep]
      exact nodup_foldl_add_sig _ _ (by simp [sigs_for])
    have hlen : 1 < (sigs_for (collect_from excl schemas.flatten []) c).length :=
      (one_lt_length_iff_exists_ne hvn).mpr
        ⟨s, (hmem_iff s).mpr hs, t, (hmem_iff t).mpr ht, hst⟩
    have hne : sigs_for (collect_from excl schemas.flatten []) c ≠ [] := by
      intro h
      rw [h] at hlen
      simp at hlen
    have hkey : c ∈ keysOf (collect_from excl schemas.flatten []) :=
      (keys_iff_ne _ hvne c).mpr hne
    have hpair : (c, sigs_for (collect_from excl schemas.flatten []) c) ∈
        collect_from excl schemas.flatten [] :=
      (pair_mem_iff _ hknd c _).mpr ⟨hkey, rfl⟩
    exact ⟨_, List.mem_filter.mpr ⟨hpair, decide_eq_true hlen⟩⟩

/-- Witness for C8 at a concrete input: three files, sample size 2 —
the sample is the first two files of the sorted list. -/
theorem drift_report_characterization_witness :
    sample_files (list_parquet_paths ["b", "a", "c"]) 2 =
      (list_parquet_paths ["b", "a", "c"]).take
        (min 2 (list_parquet_paths ["b", "a", "c"]).length) :=
  (drift_report_characterization ["b", "a", "c"] 2
    [[⟨"x", "int64"⟩], [⟨"x", "string"⟩]] []).2.2.1

end GlamiraETL
